import Mathlib

/-!
Verification of the candidate-enumeration and matching engine of the
CS426-PasswordCrackProject repository (cracker.py, wordonly.py,
patternanalysis.py, gpuversion.py).

Python strings are modeled as Lean `String`; Python dicts as association
lists (`List (String × β)`) with insertion-order semantics (overwriting an
existing key keeps its position, new keys are appended); Python sets of
digests as `List String` without duplicates.  The SHA-1 digest function is
an uninterpreted parameter `hash : String → String`; concrete witnesses use
small injective toy functions.
-/

set_option maxRecDepth 100000

namespace PC

/-- Lookup in an association list: first binding wins, as in Python dict
reads (our dicts never hold duplicate keys). -/
def alook {β : Type} : List (String × β) → String → Option β
  | [], _ => none
  | p :: m, a => if a = p.1 then some p.2 else alook m a

/-- Key list of an association list. -/
def keys {β : Type} (m : List (String × β)) : List String := m.map Prod.fst

/-- Python `d[k] = v`: overwrite in place if `k` is present, else append. -/
def dictInsert {β : Type} (m : List (String × β)) (k : String) (v : β) : List (String × β) :=
  if k ∈ keys m then m.map (fun p => if p.1 = k then (k, v) else p) else m ++ [(k, v)]

/-- Python `defaultdict(list); d[k].append(u)`. -/
def multiInsert (m : List (String × List String)) (k u : String) : List (String × List String) :=
  if k ∈ keys m then m.map (fun p => if p.1 = k then (p.1, p.2 ++ [u]) else p)
  else m ++ [(k, [u])]

/-- Python `base.update(upd)` applied to a copy of `base`. -/
def dictUpdate {β : Type} (base upd : List (String × β)) : List (String × β) :=
  upd.foldl (fun m p => dictInsert m p.1 p.2) base

theorem alook_eq_none_iff {β : Type} (m : List (String × β)) (k : String) :
    alook m k = none ↔ k ∉ keys m := by
  induction m with
  | nil => simp [alook, keys]
  | cons p m ih =>
    simp only [alook, keys, List.map_cons, List.mem_cons]
    by_cases h : k = p.1 <;> simp [h, ih, keys]

theorem mem_keys_iff_alook_isSome {β : Type} (m : List (String × β)) (k : String) :
    k ∈ keys m ↔ (alook m k).isSome := by
  rw [← Option.ne_none_iff_isSome]
  constructor
  · intro h hn
    exact (alook_eq_none_iff m k).mp hn h
  · intro h
    by_contra hk
    exact h ((alook_eq_none_iff m k).mpr hk)

theorem mem_of_alook_eq_some {β : Type} {m : List (String × β)} {k : String} {v : β}
    (h : alook m k = some v) : (k, v) ∈ m := by
  induction m with
  | nil => simp [alook] at h
  | cons p m ih =>
    simp only [alook] at h
    by_cases hk : k = p.1
    · simp only [hk, if_pos] at h
      have : p = (k, v) := by
        cases p
        simp_all
      simp [this]
    · simp only [hk, if_neg, not_false_iff] at h
      exact List.mem_cons_of_mem _ (ih h)

theorem mem_keys_of_mem {β : Type} {m : List (String × β)} {k : String} {v : β}
    (h : (k, v) ∈ m) : k ∈ keys m := List.mem_map_of_mem Prod.fst h

theorem alook_eq_some_of_mem {β : Type} {m : List (String × β)} {k : String} {v : β}
    (hnd : (keys m).Nodup) (h : (k, v) ∈ m) : alook m k = some v := by
  induction m with
  | nil => simp at h
  | cons p m ih =>
    simp only [keys, List.map_cons, List.nodup_cons] at hnd
    rcases List.mem_cons.mp h with h1 | h1
    · simp [alook, ← h1]
    · have hk : k ≠ p.1 := by
        intro he
        exact hnd.1 (he ▸ mem_keys_of_mem h1)
      simp only [alook, hk, if_neg, not_false_iff]
      exact ih hnd.2 h1

theorem mem_functional {β : Type} {m : List (String × β)} {k : String} {v1 v2 : β}
    (hnd : (keys m).Nodup) (h1 : (k, v1) ∈ m) (h2 : (k, v2) ∈ m) : v1 = v2 := by
  have e1 := alook_eq_some_of_mem hnd h1
  have e2 := alook_eq_some_of_mem hnd h2
  rw [e1] at e2
  exact Option.some.inj e2

theorem alook_perm {β : Type} {m m' : List (String × β)} (hnd : (keys m).Nodup)
    (hp : m.Perm m') (k : String) : alook m k = alook m' k := by
  have hnd' : (keys m').Nodup := (hp.map Prod.fst).nodup_iff.mp hnd
  cases hv : alook m k with
  | none =>
    have h1 : k ∉ keys m := (alook_eq_none_iff m k).mp hv
    have h2 : k ∉ keys m' := fun hk => h1 ((hp.map Prod.fst).mem_iff.mpr hk)
    exact ((alook_eq_none_iff m' k).mpr h2).symm
  | some v =>
    exact (alook_eq_some_of_mem hnd' (hp.mem_iff.mp (mem_of_alook_eq_some hv))).symm

theorem alook_append {β : Type} (m m2 : List (String × β)) (a : String) :
    alook (m ++ m2) a = ((alook m a).rec (alook m2 a) (fun v => some v) : Option β) := by
  induction m with
  | nil => simp [alook]
  | cons p m ih =>
    simp only [List.cons_append, alook]
    by_cases h : a = p.1 <;> simp [h, ih]

/-- The overwrite map of `dictInsert` leaves bindings of other keys alone. -/
theorem alook_overwrite_ne {β : Type} (m : List (String × β)) (k : String) (v : β)
    {a : String} (ha : a ≠ k) :
    alook (m.map (fun p => if p.1 = k then (k, v) else p)) a = alook m a := by
  induction m with
  | nil => simp
  | cons p m ih =>
    by_cases hp : p.1 = k
    · have hap : a ≠ p.1 := hp ▸ ha
      simp [alook, hp, hap, ha, ih]
    · simp only [List.map_cons, hp, if_neg, not_false_iff]
      simp only [alook]
      by_cases hap : a = p.1 <;> simp [hap, ih]

theorem alook_overwrite_self {β : Type} (m : List (String × β)) (k : String) (v : β)
    (h : k ∈ keys m) :
    alook (m.map (fun p => if p.1 = k then (k, v) else p)) k = some v := by
  induction m with
  | nil => simp [keys] at h
  | cons p m ih =>
    by_cases hp : p.1 = k
    · simp [alook, hp]
    · simp only [List.map_cons, hp, if_neg, not_false_iff]
      have hk : k ≠ p.1 := fun he => hp he.symm
      simp only [alook, hk, if_neg, not_false_iff]
      apply ih
      simp only [keys, List.map_cons, List.mem_cons] at h
      rcases h with h | h
      · exact absurd h.symm hp
      · exact h

theorem alook_dictInsert_self {β : Type} (m : List (String × β)) (k : String) (v : β) :
    alook (dictInsert m k v) k = some v := by
  unfold dictInsert
  by_cases h : k ∈ keys m
  · simp only [h, if_pos]
    exact alook_overwrite_self m k v h
  · simp only [h, if_neg, not_false_iff]
    rw [alook_append]
    rw [(alook_eq_none_iff m k).mpr h]
    simp [alook]

theorem alook_dictInsert_ne {β : Type} (m : List (String × β)) (k : String) (v : β)
    {a : String} (ha : a ≠ k) : alook (dictInsert m k v) a = alook m a := by
  unfold dictInsert
  by_cases h : k ∈ keys m
  · simp only [h, if_pos]
    exact alook_overwrite_ne m k v ha
  · simp only [h, if_neg, not_false_iff]
    rw [alook_append]
    cases hv : alook m a with
    | none => simp [alook, ha]
    | some v => simp

theorem keys_overwrite {β : Type} (m : List (String × β)) (k : String) (v : β) :
    keys (m.map (fun p => if p.1 = k then (k, v) else p)) = keys m := by
  simp only [keys, List.map_map]
  apply List.map_congr_left
  intro p _
  by_cases hp : p.1 = k <;> simp [hp]

theorem mem_keys_dictInsert {β : Type} (m : List (String × β)) (k : String) (v : β)
    (a : String) : a ∈ keys (dictInsert m k v) ↔ a ∈ keys m ∨ a = k := by
  unfold dictInsert
  by_cases h : k ∈ keys m
  · simp only [h, if_pos, keys_overwrite]
    constructor
    · exact Or.inl
    · intro ha
      rcases ha with ha | ha
      · exact ha
      · exact ha ▸ h
  · simp only [h, if_neg, not_false_iff]
    simp [keys, List.mem_append]

theorem nodup_keys_dictInsert {β : Type} {m : List (String × β)} (k : String) (v : β)
    (hnd : (keys m).Nodup) : (keys (dictInsert m k v)).Nodup := by
  unfold dictInsert
  by_cases h : k ∈ keys m
  · simp only [h, if_pos, keys_overwrite]
    exact hnd
  · simp only [h, if_neg, not_false_iff]
    simp only [keys, List.map_append, List.map_cons, List.map_nil]
    exact List.Nodup.append hnd (List.nodup_singleton k) (by
      intro a ha hb
      simp only [List.mem_singleton] at hb
      subst hb
      exact h ha)

theorem alook_multiInsert_self (m : List (String × List String)) (k u : String) :
    alook (multiInsert m k u) k = some (((alook m k).getD []) ++ [u]) := by
  unfold multiInsert
  by_cases h : k ∈ keys m
  · simp only [h, if_pos]
    induction m with
    | nil => simp [keys] at h
    | cons p m ih =>
      by_cases hp : p.1 = k
      · simp [alook, hp]
      · have hk : k ≠ p.1 := fun he => hp he.symm
        simp only [List.map_cons, hp, if_neg, not_false_iff, alook, hk]
        apply ih
        simp only [keys, List.map_cons, List.mem_cons] at h
        rcases h with h | h
        · exact absurd h.symm hp
        · exact h
  · simp only [h, if_neg, not_false_iff]
    rw [alook_append, (alook_eq_none_iff m k).mpr h]
    simp [alook]

theorem alook_multiappend_ne (m : List (String × List String)) (k u : String)
    {a : String} (ha : a ≠ k) :
    alook (m.map (fun p => if p.1 = k then (p.1, p.2 ++ [u]) else p)) a = alook m a := by
  induction m with
  | nil => simp
  | cons p m ih =>
    by_cases hp : p.1 = k
    · have hap : a ≠ p.1 := fun he => ha (he.trans hp)
      rw [List.map_cons, if_pos hp]
      simp only [alook, hap, if_neg, not_false_iff]
      exact ih
    · rw [List.map_cons, if_neg hp]
      simp only [alook]
      by_cases hap : a = p.1 <;> simp [hap, ih]

theorem alook_multiInsert_ne (m : List (String × List String)) (k u : String)
    {a : String} (ha : a ≠ k) : alook (multiInsert m k u) a = alook m a := by
  unfold multiInsert
  by_cases h : k ∈ keys m
  · simp only [h, if_pos]
    exact alook_multiappend_ne m k u ha
  · simp only [h, if_neg, not_false_iff]
    rw [alook_append]
    cases hv : alook m a with
    | none => simp [alook, ha]
    | some v => simp

theorem keys_multiInsert_mem (m : List (String × List String)) (k u : String)
    (a : String) : a ∈ keys (multiInsert m k u) ↔ a ∈ keys m ∨ a = k := by
  unfold multiInsert
  by_cases h : k ∈ keys m
  · have hkeys : keys (m.map (fun p => if p.1 = k then (p.1, p.2 ++ [u]) else p)) = keys m := by
      simp only [keys, List.map_map]
      apply List.map_congr_left
      intro p _
      by_cases hp : p.1 = k <;> simp [hp]
    simp only [h, if_pos, hkeys]
    constructor
    · exact Or.inl
    · intro ha
      rcases ha with ha | ha
      · exact ha
      · exact ha ▸ h
  · simp only [h, if_neg, not_false_iff]
    simp [keys, List.mem_append]

theorem nodup_keys_multiInsert {m : List (String × List String)} (k u : String)
    (hnd : (keys m).Nodup) : (keys (multiInsert m k u)).Nodup := by
  unfold multiInsert
  by_cases h : k ∈ keys m
  · have hkeys : keys (m.map (fun p => if p.1 = k then (p.1, p.2 ++ [u]) else p)) = keys m := by
      simp only [keys, List.map_map]
      apply List.map_congr_left
      intro p _
      by_cases hp : p.1 = k <;> simp [hp]
    simp only [h, if_pos, hkeys]
    exact hnd
  · simp only [h, if_neg, not_false_iff]
    simp only [keys, List.map_append, List.map_cons, List.map_nil]
    exact List.Nodup.append hnd (List.nodup_singleton k) (by
      intro a ha hb
      simp only [List.mem_singleton] at hb
      subst hb
      exact h ha)

theorem mem_keys_dictUpdate {β : Type} (base upd : List (String × β)) (a : String) :
    a ∈ keys (dictUpdate base upd) ↔ a ∈ keys base ∨ a ∈ keys upd := by
  induction upd generalizing base with
  | nil => simp [dictUpdate, keys]
  | cons p u ih =>
    simp only [dictUpdate, List.foldl_cons] at *
    rw [ih]
    rw [mem_keys_dictInsert]
    constructor
    · rintro (⟨h | h⟩ | h)
      · exact Or.inl h
      · right
        simp [keys, h]
      · right
        simp only [keys, List.map_cons, List.mem_cons]
        right
        exact h
    · rintro (h | h)
      · exact Or.inl (Or.inl h)
      · simp only [keys, List.map_cons, List.mem_cons] at h
        rcases h with h | h
        · exact Or.inl (Or.inr h)
        · exact Or.inr h

theorem alook_dictUpdate_not_mem {β : Type} (base upd : List (String × β)) (a : String) :
    a ∉ keys upd → alook (dictUpdate base upd) a = alook base a := by
  induction upd generalizing base with
  | nil =>
    intro _
    simp [dictUpdate]
  | cons p u ih =>
    intro ha
    simp only [keys, List.map_cons, List.mem_cons] at ha
    push_neg at ha
    simp only [dictUpdate, List.foldl_cons]
    have h2 : a ∉ keys u := ha.2
    have step := ih (dictInsert base p.1 p.2) h2
    simp only [dictUpdate] at step
    rw [step]
    exact alook_dictInsert_ne base p.1 p.2 ha.1

theorem alook_dictUpdate_mem {β : Type} (base upd : List (String × β)) (a : String) :
    (keys upd).Nodup → a ∈ keys upd → alook (dictUpdate base upd) a = alook upd a := by
  induction upd generalizing base with
  | nil =>
    intro _ ha
    simp [keys] at ha
  | cons p u ih =>
    intro hnd ha
    simp only [keys, List.map_cons, List.nodup_cons] at hnd
    have hfold : dictUpdate base (p :: u) = dictUpdate (dictInsert base p.1 p.2) u := rfl
    rw [hfold]
    rcases List.mem_cons.mp ha with h1 | h1
    · have h2 : a ∉ keys u := h1 ▸ hnd.1
      rw [alook_dictUpdate_not_mem _ u a h2, h1, alook_dictInsert_self]
      simp [alook]
    · have hne : a ≠ p.1 := by
        intro he
        exact hnd.1 (he ▸ h1)
      rw [ih _ hnd.2 h1]
      simp [alook, hne]

/-!
The MatchEngine.  `CreativeCracker` (cracker.py), `SmartWordCracker`
(wordonly.py) and `PatternAwareCracker` (patternanalysis.py) have textually
identical `__init__` state (for the fields below) and `test` methods, so one
embedding covers all three.
-/

/-- Engine state: `hash_to_ids`, `found`, `remaining_hashes`, `total_hashes`
and `attempts` fields of the cracker classes. -/
structure Cracker where
  hash_to_ids : List (String × List String)
  found : List (String × String)
  remaining_hashes : List String
  total_hashes : Nat
  attempts : Nat
deriving DecidableEq

/-- The `__init__` of the cracker classes:
`remaining_hashes = set(hash_to_ids.keys()) - set(found.keys())`. -/
def Cracker.init (h2i : List (String × List String)) (found : List (String × String)) :
    Cracker where
  hash_to_ids := h2i
  found := found
  remaining_hashes := ((keys h2i).dedup).filter (fun h => h ∉ keys found)
  total_hashes := h2i.length
  attempts := 0

/-- The `test` method shared by the three crackers: bump `attempts`, hash the
candidate, and if the digest is still remaining, record it in `found`, remove
it from `remaining_hashes`, and return `True` exactly when nothing remains.
(The `print` calls are I/O only and are not modeled.) -/
def Cracker.test (hash : String → String) (e : Cracker) (candidate : String) :
    Bool × Cracker :=
  let e1 : Cracker := { e with attempts := e.attempts + 1 }
  let h := hash candidate
  if h ∈ e1.remaining_hashes then
    let e2 : Cracker := { e1 with
      found := dictInsert e1.found h candidate
      remaining_hashes := e1.remaining_hashes.erase h }
    if e2.remaining_hashes = [] then (true, e2) else (false, e2)
  else (false, e1)

/-- Run a sequence of `test` calls, keeping only the final state. -/
def runTests (hash : String → String) (e : Cracker) : List String → Cracker
  | [] => e
  | c :: cs => runTests hash (Cracker.test hash e c).2 cs

/-- Run a sequence of `test` calls, collecting each call's returned Bool. -/
def runResults (hash : String → String) (e : Cracker) : List String → List Bool × Cracker
  | [] => ([], e)
  | c :: cs =>
    let r := Cracker.test hash e c
    let rest := runResults hash r.2 cs
    (r.1 :: rest.1, rest.2)

theorem runTests_append (hash : String → String) (e : Cracker) (l1 l2 : List String) :
    runTests hash e (l1 ++ l2) = runTests hash (runTests hash e l1) l2 := by
  induction l1 generalizing e with
  | nil => rfl
  | cons c cs ih => simp [runTests, ih]

/-- On a miss the call only bumps the attempt counter. -/
theorem test_miss (hash : String → String) (e : Cracker) (c : String)
    (h : hash c ∉ e.remaining_hashes) :
    Cracker.test hash e c = (false, { e with attempts := e.attempts + 1 }) := by
  simp [Cracker.test, h]

/-- On a hit the call records the candidate and erases the digest. -/
theorem test_hit (hash : String → String) (e : Cracker) (c : String)
    (h : hash c ∈ e.remaining_hashes) :
    (Cracker.test hash e c).2 = { e with
      attempts := e.attempts + 1
      found := dictInsert e.found (hash c) c
      remaining_hashes := e.remaining_hashes.erase (hash c) } := by
  simp only [Cracker.test, h, if_pos]
  by_cases h2 : e.remaining_hashes.erase (hash c) = [] <;> simp [h2]

theorem test_true_iff (hash : String → String) (e : Cracker) (c : String) :
    (Cracker.test hash e c).1 = true ↔
      hash c ∈ e.remaining_hashes ∧ e.remaining_hashes.erase (hash c) = [] := by
  by_cases h : hash c ∈ e.remaining_hashes
  · simp only [Cracker.test, h, if_pos]
    by_cases h2 : e.remaining_hashes.erase (hash c) = [] <;> simp [h, h2]
  · simp [Cracker.test, h]

/-- Combined state invariant: remaining digests are duplicate-free and
disjoint from the keys already found. -/
def EngInv (e : Cracker) : Prop :=
  e.remaining_hashes.Nodup ∧ ∀ k, k ∈ keys e.found → k ∉ e.remaining_hashes

theorem EngInv_init (h2i : List (String × List String)) (found : List (String × String)) :
    EngInv (Cracker.init h2i found) := by
  constructor
  · exact (List.nodup_dedup (keys h2i)).filter _
  · intro k hk hmem
    simp only [Cracker.init, List.mem_filter] at hmem
    exact absurd hk (by simpa using hmem.2)

theorem EngInv_test (hash : String → String) (e : Cracker) (c : String)
    (hinv : EngInv e) : EngInv (Cracker.test hash e c).2 := by
  by_cases h : hash c ∈ e.remaining_hashes
  · rw [test_hit hash e c h]
    constructor
    · exact hinv.1.erase _
    · intro k hk hmem
      simp only at hk hmem
      rcases (mem_keys_dictInsert _ _ _ k).mp hk with h1 | h1
      · exact hinv.2 k h1 (List.mem_of_mem_erase hmem)
      · subst h1
        exact hinv.1.not_mem_erase hmem
  · rw [test_miss hash e c h]
    exact hinv

theorem EngInv_runTests (hash : String → String) (e : Cracker) (cs : List String)
    (hinv : EngInv e) : EngInv (runTests hash e cs) := by
  induction cs generalizing e with
  | nil => exact hinv
  | cons c cs ih => exact ih _ (EngInv_test hash e c hinv)

/-- Once a digest is bound in `found`, no further `test` call rebinds it. -/
theorem found_stable_test (hash : String → String) (e : Cracker) (c : String)
    {D : String} {p : String} (hinv : EngInv e) (hD : alook e.found D = some p) :
    alook (Cracker.test hash e c).2.found D = some p := by
  by_cases h : hash c ∈ e.remaining_hashes
  · rw [test_hit hash e c h]
    have hne : D ≠ hash c := by
      intro he
      have : D ∈ keys e.found := (mem_keys_iff_alook_isSome _ _).mpr (by simp [hD])
      exact hinv.2 D this (he ▸ h)
    simpa only using (alook_dictInsert_ne e.found (hash c) c hne).trans hD
  · rw [test_miss hash e c h]
    exact hD

theorem found_stable_runTests (hash : String → String) (e : Cracker) (cs : List String)
    {D : String} {p : String} (hinv : EngInv e) (hD : alook e.found D = some p) :
    alook (runTests hash e cs).found D = some p := by
  induction cs generalizing e with
  | nil => exact hD
  | cons c cs ih =>
    exact ih _ (EngInv_test hash e c hinv) (found_stable_test hash e c hinv hD)

/-- C1: At-most-once credit: for every run and every digest D in the
TargetSet, over any sequence of MatchEngine test calls, at most one plaintext
is ever recorded for D in FoundMap; once a candidate hashing to D has been
credited (FoundMap maps D to p after a prefix of the calls), no later
candidate hashing to D changes FoundMap at D or is credited again. -/
theorem c1_at_most_once_credit (hash : String → String)
    (h2i : List (String × List String)) (found0 : List (String × String))
    (l1 l2 : List String) (D p : String)
    (hcred : alook (runTests hash (Cracker.init h2i found0) l1).found D = some p) :
    alook (runTests hash (Cracker.init h2i found0) (l1 ++ l2)).found D = some p := by
  rw [runTests_append]
  exact found_stable_runTests hash _ l2
    (EngInv_runTests hash _ l1 (EngInv_init h2i found0)) hcred

/-- Witness for C1 at a concrete run: toy hash `s ↦ "h" ++ s`, one target
digest `"hcat"`, candidate list `["cat"]` then `["dog", "cat"]` appended; the
credit for `"hcat"` recorded after the prefix survives the remaining calls. -/
theorem c1_witness :
    alook (runTests (fun s => "h" ++ s)
      (Cracker.init [("hcat", ["u1"])] []) ["cat"]).found "hcat" = some "cat" ∧
    alook (runTests (fun s => "h" ++ s)
      (Cracker.init [("hcat", ["u1"])] []) (["cat"] ++ ["dog", "cat"])).found "hcat"
      = some "cat" :=
  ⟨by decide, c1_at_most_once_credit (fun s => "h" ++ s) [("hcat", ["u1"])] []
    ["cat"] ["dog", "cat"] "hcat" "cat" (by decide)⟩

/-- C5 counterexample: a `test` call on a missing digest is NOT free of side
effects on the engine's state: the `attempts` counter (engine-owned state,
`self.attempts += 1` runs before the membership check) changes, so the
post-state differs from the pre-state. -/
theorem c5_counterexample :
    (fun s => "h" ++ s) "zz" ∉ (Cracker.init [("aa", ["u1"])] []).remaining_hashes ∧
    (Cracker.test (fun s => "h" ++ s) (Cracker.init [("aa", ["u1"])] []) "zz").1 = false ∧
    (Cracker.test (fun s => "h" ++ s) (Cracker.init [("aa", ["u1"])] []) "zz").2 ≠
      Cracker.init [("aa", ["u1"])] [] := by
  decide

/-- C5 amended: for every candidate whose digest is not in RemainingTargets,
`test` returns a non-credited, non-exhausted result (`false`) and leaves
FoundMap and RemainingTargets (and all other fields except the attempt
counter) unchanged; the only state change is `attempts` incrementing by
one. -/
theorem c5_miss_frame (hash : String → String) (e : Cracker) (c : String)
    (h : hash c ∉ e.remaining_hashes) :
    Cracker.test hash e c = (false, { e with attempts := e.attempts + 1 }) :=
  test_miss hash e c h

/-- Witness for C5 amended at a concrete miss. -/
theorem c5_miss_frame_witness :
    ((fun s => "h" ++ s) "zz" ∉ (Cracker.init [("aa", ["u1"])] []).remaining_hashes) ∧
    Cracker.test (fun s => "h" ++ s) (Cracker.init [("aa", ["u1"])] []) "zz" =
      (false, { Cracker.init [("aa", ["u1"])] [] with attempts := 1 }) :=
  ⟨by decide, c5_miss_frame (fun s => "h" ++ s) (Cracker.init [("aa", ["u1"])] []) "zz"
    (by decide)⟩

theorem test_remaining_length_le (hash : String → String) (e : Cracker) (c : String) :
    (Cracker.test hash e c).2.remaining_hashes.length ≤ e.remaining_hashes.length := by
  by_cases h : hash c ∈ e.remaining_hashes
  · rw [test_hit hash e c h]
    simp only [List.length_erase_of_mem h]
    exact Nat.pred_le _
  · rw [test_miss hash e c h]

theorem runTests_remaining_length_le (hash : String → String) (e : Cracker)
    (cs : List String) :
    (runTests hash e cs).remaining_hashes.length ≤ e.remaining_hashes.length := by
  induction cs generalizing e with
  | nil => exact le_refl _
  | cons c cs ih =>
    exact le_trans (ih (Cracker.test hash e c).2) (test_remaining_length_le hash e c)

/-- C6: Monotone shrink: a `test` call never increases `remaining_hashes`;
it shrinks it by exactly one precisely when the candidate's digest is a
member of `remaining_hashes` (and leaves it identical otherwise), and over
any sequence of `test` calls the size is non-increasing. -/
theorem c6_monotone_shrink (hash : String → String) (e : Cracker) (c : String) :
    (Cracker.test hash e c).2.remaining_hashes.length ≤ e.remaining_hashes.length ∧
    (hash c ∈ e.remaining_hashes →
      (Cracker.test hash e c).2.remaining_hashes.length + 1 = e.remaining_hashes.length) ∧
    (hash c ∉ e.remaining_hashes →
      (Cracker.test hash e c).2.remaining_hashes = e.remaining_hashes) ∧
    (∀ cs, (runTests hash e cs).remaining_hashes.length ≤ e.remaining_hashes.length) := by
  have hhit : hash c ∈ e.remaining_hashes →
      (Cracker.test hash e c).2.remaining_hashes.length + 1 = e.remaining_hashes.length := by
    intro h
    rw [test_hit hash e c h]
    simp only [List.length_erase_of_mem h]
    exact Nat.succ_pred_eq_of_pos (List.length_pos.mpr (List.ne_nil_of_mem h))
  have hmiss : hash c ∉ e.remaining_hashes →
      (Cracker.test hash e c).2.remaining_hashes = e.remaining_hashes := by
    intro h
    rw [test_miss hash e c h]
  exact ⟨test_remaining_length_le hash e c, hhit, hmiss,
    fun cs => runTests_remaining_length_le hash e cs⟩

/-- Witness for C6 at a concrete hit. -/
theorem c6_witness :
    ((fun s => "h" ++ s) "cat" ∈ (Cracker.init [("hcat", ["u1"]), ("x", ["u2"])] []).remaining_hashes) ∧
    (Cracker.test (fun s => "h" ++ s) (Cracker.init [("hcat", ["u1"]), ("x", ["u2"])] [])
      "cat").2.remaining_hashes.length + 1 =
      (Cracker.init [("hcat", ["u1"]), ("x", ["u2"])] []).remaining_hashes.length :=
  ⟨by decide, (c6_monotone_shrink (fun s => "h" ++ s)
    (Cracker.init [("hcat", ["u1"]), ("x", ["u2"])] []) "cat").2.1 (by decide)⟩

theorem run_count_true_zero (hash : String → String) (e : Cracker) (cs : List String)
    (h : e.remaining_hashes = []) : ((runResults hash e cs).1.count true) = 0 := by
  induction cs generalizing e with
  | nil => simp [runResults]
  | cons c cs ih =>
    have hmiss : hash c ∉ e.remaining_hashes := by
      rw [h]
      exact List.not_mem_nil _
    simp only [runResults, test_miss hash e c hmiss]
    rw [List.count_cons]
    simp only [ih { e with attempts := e.attempts + 1 } h]
    simp

theorem test_true_remaining_nil (hash : String → String) (e : Cracker) (c : String)
    (h : (Cracker.test hash e c).1 = true) :
    hash c ∈ e.remaining_hashes ∧ (Cracker.test hash e c).2.remaining_hashes = [] := by
  have hh := (test_true_iff hash e c).mp h
  refine ⟨hh.1, ?_⟩
  rw [test_hit hash e c hh.1]
  exact hh.2

/-- C10 (implicit): post-exhaustion calls are inert: once `remaining_hashes`
is empty, every `test` call returns `false` and leaves `found` and
`remaining_hashes` unchanged (only `attempts` advances); `test` returns
`true` only on a call whose digest is remaining and whose removal empties
`remaining_hashes`; consequently over any sequence of calls the `true`
(exhausted) signal occurs at most once. -/
theorem c10_post_exhaustion_inert :
    (∀ (hash : String → String) (e : Cracker) (c : String), e.remaining_hashes = [] →
      Cracker.test hash e c = (false, { e with attempts := e.attempts + 1 })) ∧
    (∀ (hash : String → String) (e : Cracker) (c : String), (Cracker.test hash e c).1 = true →
      hash c ∈ e.remaining_hashes ∧ (Cracker.test hash e c).2.remaining_hashes = []) ∧
    (∀ (hash : String → String) (e : Cracker) (cs : List String),
      ((runResults hash e cs).1.count true) ≤ 1) := by
  refine ⟨?_, test_true_remaining_nil, ?_⟩
  · intro hash e c h
    apply test_miss
    rw [h]
    exact List.not_mem_nil _
  · intro hash e cs
    induction cs generalizing e with
    | nil => simp [runResults]
    | cons c cs ih =>
      simp only [runResults, List.count_cons]
      cases hr : (Cracker.test hash e c).1 with
      | true =>
        have hnil := (test_true_remaining_nil hash e c hr).2
        rw [run_count_true_zero hash _ cs hnil]
        simp
      | false =>
        simpa [hr] using ih (Cracker.test hash e c).2

/-- Witness for C10 at a concrete exhausted engine. -/
theorem c10_witness :
    (Cracker.init [("aa", ["u1"])] [("aa", "x")]).remaining_hashes = [] ∧
    Cracker.test (fun s => "h" ++ s) (Cracker.init [("aa", ["u1"])] [("aa", "x")]) "w" =
      (false, { Cracker.init [("aa", ["u1"])] [("aa", "x")] with attempts := 1 }) :=
  ⟨by decide, c10_post_exhaustion_inert.1 (fun s => "h" ++ s)
    (Cracker.init [("aa", ["u1"])] [("aa", "x")]) "w" (by decide)⟩

/-!
Candidate generators.  Each generator is embedded as the pure candidate
sequence its nested loops feed to `test`, parameterized by the word pool the
method slices (`self.short_words` resp. `working_words`).
-/

/-- Python `str.zfill`: left-pad with `'0'` to the given width. -/
def zfill (width : Nat) (s : String) : String :=
  String.mk (List.replicate (width - s.length) '0') ++ s

/-- Candidate sequence of `CreativeCracker.digits_between_words`: three nested
loop blocks `w1 + str(d) + w2` (d in 0..999), `w1 + str(d) + w2 + w3` over the
first 200 words (d in 0..99), and `w1 + str(d) + w2 + w3 + w4` over the first
100 words (d in 0..9).  The digit component is `str(d)`, unpadded. -/
def digits_between_words_cands (short : List String) : List String :=
  (short.flatMap fun w1 => short.flatMap fun w2 =>
    (List.range 1000).map fun d => w1 ++ Nat.repr d ++ w2)
  ++ ((short.take 200).flatMap fun w1 => (short.take 200).flatMap fun w2 =>
    (short.take 200).flatMap fun w3 =>
      (List.range 100).map fun d => w1 ++ Nat.repr d ++ w2 ++ w3)
  ++ ((short.take 100).flatMap fun w1 => (short.take 100).flatMap fun w2 =>
    (short.take 100).flatMap fun w3 => (short.take 100).flatMap fun w4 =>
      (List.range 10).map fun d => w1 ++ Nat.repr d ++ w2 ++ w3 ++ w4)

/-- Candidate sequence of `CreativeCracker.digits_prefix`: for each
`num_digits` in `range(1, 5)` and each `d` in `range(10 ** num_digits)`, the
zero-padded digit string `str(d).zfill(num_digits)` is prepended to two words
(first 300 of the pool) and, when `num_digits <= 2`, also to three words
(first 100 of the pool). -/
def digits_prefix_cands (short : List String) : List String :=
  (List.range' 1 4).flatMap fun num_digits =>
    (List.range (10 ^ num_digits)).flatMap fun d =>
      ((short.take 300).flatMap fun w1 => (short.take 300).map fun w2 =>
        zfill num_digits (Nat.repr d) ++ w1 ++ w2)
      ++ (if num_digits ≤ 2 then
            (short.take 100).flatMap fun w1 => (short.take 100).flatMap fun w2 =>
              (short.take 100).map fun w3 =>
                zfill num_digits (Nat.repr d) ++ w1 ++ w2 ++ w3
          else [])

theorem zfill_length (n : Nat) (s : String) :
    (zfill n s).length = (n - s.length) + s.length := by
  unfold zfill
  rw [String.length_append]
  congr 1
  exact List.length_replicate _ _

/-- Every string of the form `a ++ "cat"` ends in the character `'t'`. -/
theorem ends_t (a : String) : (a ++ "cat").data.getLast? = some 't' := by
  rw [String.data_append, List.getLast?_append]
  rfl

theorem between_words_ends_t :
    ∀ s ∈ digits_between_words_cands ["cat"], s.data.getLast? = some 't' := by
  intro s hs
  have h200 : List.take 200 (["cat"] : List String) = ["cat"] := rfl
  have h100 : List.take 100 (["cat"] : List String) = ["cat"] := rfl
  simp only [digits_between_words_cands, h200, h100, List.flatMap_cons, List.flatMap_nil,
    List.append_nil, List.mem_append, List.mem_map, List.mem_range] at hs
  rcases hs with (⟨d, _, rfl⟩ | ⟨d, _, rfl⟩) | ⟨d, _, rfl⟩ <;> exact ends_t _

theorem digits_before_words_ends_t :
    ∀ s ∈ digits_prefix_cands ["cat"], s.data.getLast? = some 't' := by
  intro s hs
  have hr : List.range' 1 4 = [1, 2, 3, 4] := rfl
  have h300 : List.take 300 (["cat"] : List String) = ["cat"] := rfl
  have h100 : List.take 100 (["cat"] : List String) = ["cat"] := rfl
  simp only [digits_prefix_cands, hr, h300, h100, List.flatMap_cons, List.flatMap_nil,
    List.append_nil, List.map_cons, List.map_nil, List.mem_append, List.mem_flatMap,
    List.mem_range, List.mem_cons, List.not_mem_nil, or_false] at hs
  rcases hs with ⟨d, _, hs⟩ | ⟨d, _, hs⟩ | ⟨d, _, hs⟩ | ⟨d, _, hs⟩ <;>
    rcases hs with rfl | hs <;>
      first
        | exact ends_t _
        | (split at hs
           · rw [List.mem_singleton] at hs
             subst hs
             exact ends_t _
           · exact absurd hs (List.not_mem_nil _))

/-- C3 counterexample: neither generator cited for the word+digit claim ever
produces `"cat00"` from word pool `["cat"]`: every candidate of
`digits_between_words` and of `digits_prefix` ends in `'t'` (a word is always
last), while `"cat00"` ends in `'0'`; and `digits_between_words` emits
unpadded digits, its sequence starting `"cat0cat"`, `"cat1cat"`. -/
theorem c3_counterexample :
    "cat00" ∉ digits_between_words_cands ["cat"] ∧
    "cat00" ∉ digits_prefix_cands ["cat"] ∧
    (digits_between_words_cands ["cat"]).take 2 = ["cat0cat", "cat1cat"] := by
  refine ⟨fun hmem => ?_, fun hmem => ?_, rfl⟩
  · exact absurd (between_words_ends_t _ hmem) (by decide)
  · exact absurd (digits_before_words_ends_t _ hmem) (by decide)

/-- C3 amended: the repository has no word+digit-suffix generator.  The
digits-between-words generator emits its numeric component unpadded: with
pool `["cat"]` its first 1000 candidates are `"cat" ++ str(d) ++ "cat"` for
d = 0..999 in ascending numeric order.  The digits-prefix generator is the
zero-padded one: its numeric component `str(d).zfill(num_digits)` has exactly
the declared width for every positive width and every `d < 10 ^ width`, and
with pool `["cat"]` its width-2 block runs `"00catcat"`, `"00catcatcat"`,
`"01catcat"`, ..., `"99catcatcat"` in zero-padded ascending order (digits
before the words, not after). -/
theorem c3_digit_generator_shapes :
    ((digits_between_words_cands ["cat"]).take 1000 =
      (List.range 1000).map (fun d => "cat" ++ Nat.repr d ++ "cat")) ∧
    (∀ nd, 0 < nd → ∀ d, d < 10 ^ nd → (zfill nd (Nat.repr d)).length = nd) ∧
    (((digits_prefix_cands ["cat"]).drop 20).take 200 =
      (List.range 100).flatMap (fun d =>
        [zfill 2 (Nat.repr d) ++ "catcat", zfill 2 (Nat.repr d) ++ "catcatcat"])) := by
  refine ⟨?_, ?_, by decide⟩
  · have h200 : List.take 200 (["cat"] : List String) = ["cat"] := rfl
    have h100 : List.take 100 (["cat"] : List String) = ["cat"] := rfl
    simp only [digits_between_words_cands, h200, h100, List.flatMap_cons, List.flatMap_nil,
      List.append_nil]
    rw [List.append_assoc]
    exact List.take_left' (by simp)
  · intro nd hnd d hd
    have hle := Nat.repr_length d nd hnd hd
    rw [zfill_length]
    omega

/-- Witness for C3 amended: width 2, value 7 is padded to length 2. -/
theorem c3_digit_generator_shapes_witness :
    ((0 < 2 ∧ 7 < 10 ^ 2) ∧ (zfill 2 (Nat.repr 7)).length = 2) ∧
    zfill 2 (Nat.repr 7) = "07" :=
  ⟨⟨by decide, c3_digit_generator_shapes.2.1 2 (by decide) 7 (by decide)⟩, by decide⟩

/-- Candidate sequence of `SmartWordCracker.four_word_attack_smart`,
strategy 1 (`TRY_4_WORD_NO_REPEATS`): guarded by `len(working_words) >= 4`,
four nested loops over the pool with `continue` on any repeated word,
emitting `w1 + w2 + w3 + w4`. -/
def four_word_no_repeats_cands (pool : List String) : List String :=
  if 4 ≤ pool.length then
    pool.flatMap fun w1 =>
      (pool.filter fun w2 => w2 ≠ w1).flatMap fun w2 =>
        (pool.filter fun w3 => w3 ≠ w1 ∧ w3 ≠ w2).flatMap fun w3 =>
          (pool.filter fun w4 => w4 ≠ w1 ∧ w4 ≠ w2 ∧ w4 ≠ w3).map fun w4 =>
            w1 ++ w2 ++ w3 ++ w4
  else []

/-- C8: Infeasible parameters yield an empty sequence: a word pool with fewer
than 4 distinct words makes the no-repeat 4-word generator produce no
candidate at all (and, being a total function, it raises no error). -/
theorem c8_infeasible_empty (pool : List String) (h : pool.toFinset.card < 4) :
    four_word_no_repeats_cands pool = [] := by
  unfold four_word_no_repeats_cands
  by_cases hlen : 4 ≤ pool.length
  · simp only [hlen, if_pos]
    apply List.eq_nil_iff_forall_not_mem.mpr
    intro s hs
    simp only [List.mem_flatMap, List.mem_filter, List.mem_map,
      decide_eq_true_eq] at hs
    obtain ⟨w1, hw1, w2, ⟨hw2, h21⟩, w3, ⟨hw3, h31, h32⟩, w4, ⟨hw4, h41, h42, h43⟩, _⟩ := hs
    have hcard : ({w1, w2, w3, w4} : Finset String).card = 4 := by
      rw [Finset.card_insert_of_not_mem (by
        simp only [Finset.mem_insert, Finset.mem_singleton]
        push_neg
        exact ⟨fun he => h21 he.symm, fun he => h31 he.symm, fun he => h41 he.symm⟩)]
      rw [Finset.card_insert_of_not_mem (by
        simp only [Finset.mem_insert, Finset.mem_singleton]
        push_neg
        exact ⟨fun he => h32 he.symm, fun he => h42 he.symm⟩)]
      rw [Finset.card_insert_of_not_mem (by
        simp only [Finset.mem_singleton]
        exact fun he => h43 he.symm)]
      rfl
    have hsub : ({w1, w2, w3, w4} : Finset String) ⊆ pool.toFinset := by
      intro x hx
      simp only [Finset.mem_insert, Finset.mem_singleton] at hx
      rcases hx with hx | hx | hx | hx <;> subst hx <;>
        exact List.mem_toFinset.mpr (by assumption)
    have : 4 ≤ pool.toFinset.card := hcard ▸ Finset.card_le_card hsub
    omega
  · simp [hlen]

/-- Witness for C8 at a pool of 3 distinct words. -/
theorem c8_infeasible_empty_witness :
    (["a", "b", "c"] : List String).toFinset.card < 4 ∧
    four_word_no_repeats_cands ["a", "b", "c"] = [] :=
  ⟨by decide, c8_infeasible_empty ["a", "b", "c"] (by decide)⟩

/-!
The persisted cache (`load_cache` / `save_cache`, identical in cracker.py,
wordonly.py and patternanalysis.py).  A file's content is a `String`; its
character list is split on `'\n'` to model Python's line iteration plus
`rstrip("\n")`, each line is split at the first `' '` to model
`split(" ", 1)`, and `sorted(cache_dict.items())` is modeled by an insertion
sort under the code-point lexicographic order on `(key, value)` pairs (Python
tuple comparison of `str`). -/

/-- Python `str.lower()` (ASCII case folding suffices for hex digests). -/
def lowerStr (s : String) : String := String.mk (s.data.map Char.toLower)

/-- Code-point lexicographic `≤` on character lists: Python string `<=`. -/
def lexLe : List Char → List Char → Bool
  | [], _ => true
  | _ :: _, [] => false
  | a :: as, b :: bs => if a < b then true else if b < a then false else lexLe as bs

theorem lexLe_refl : ∀ x : List Char, lexLe x x = true
  | [] => rfl
  | a :: as => by simp [lexLe, lt_irrefl, lexLe_refl as]

theorem lexLe_total : ∀ x y : List Char, lexLe x y = true ∨ lexLe y x = true := by
  intro x
  induction x with
  | nil =>
    intro y
    left
    rfl
  | cons a as ih =>
    intro y
    cases y with
    | nil =>
      right
      rfl
    | cons b bs =>
      rcases lt_trichotomy a b with h | h | h
      · left
        simp [lexLe, h]
      · subst h
        rcases ih bs with h2 | h2
        · left
          simp [lexLe, lt_irrefl, h2]
        · right
          simp [lexLe, lt_irrefl, h2]
      · right
        simp [lexLe, h]

theorem lexLe_trans : ∀ x y z : List Char,
    lexLe x y = true → lexLe y z = true → lexLe x z = true := by
  intro x
  induction x with
  | nil =>
    intro y z _ _
    rfl
  | cons a as ih =>
    intro y z hxy hyz
    cases y with
    | nil => simp [lexLe] at hxy
    | cons b bs =>
      cases z with
      | nil => simp [lexLe] at hyz
      | cons c cs =>
        rcases lt_trichotomy a b with hab | hab | hab
        · rcases lt_trichotomy b c with hbc | hbc | hbc
          · simp [lexLe, lt_trans hab hbc]
          · subst hbc
            simp [lexLe, hab]
          · simp [lexLe, lt_asymm hbc, hbc] at hyz
        · subst hab
          rcases lt_trichotomy a c with hac | hac | hac
          · simp [lexLe, hac]
          · subst hac
            simp only [lexLe, lt_irrefl, if_false] at hxy hyz ⊢
            exact ih bs cs hxy hyz
          · simp [lexLe, lt_asymm hac, hac] at hyz
        · simp [lexLe, lt_asymm hab, hab] at hxy

theorem lexLe_antisymm : ∀ x y : List Char,
    lexLe x y = true → lexLe y x = true → x = y := by
  intro x
  induction x with
  | nil =>
    intro y _ hyx
    cases y with
    | nil => rfl
    | cons b bs => simp [lexLe] at hyx
  | cons a as ih =>
    intro y hxy hyx
    cases y with
    | nil => simp [lexLe] at hxy
    | cons b bs =>
      rcases lt_trichotomy a b with hab | hab | hab
      · simp [lexLe, lt_asymm hab, hab] at hyx
      · subst hab
        simp only [lexLe, lt_irrefl, if_false] at hxy hyx
        rw [ih bs hxy hyx]
      · simp [lexLe, lt_asymm hab, hab] at hxy

/-- Python tuple comparison `(h1, pw1) <= (h2, pw2)` on string pairs. -/
def pairLe (p q : String × String) : Prop :=
  if p.1 = q.1 then lexLe p.2.data q.2.data = true else lexLe p.1.data q.1.data = true

instance : DecidableRel pairLe := fun p q => by
  unfold pairLe
  infer_instance

instance : IsTotal (String × String) pairLe where
  total := by
    intro p q
    unfold pairLe
    by_cases h : p.1 = q.1
    · rw [if_pos h, if_pos h.symm]
      exact lexLe_total _ _
    · rw [if_neg h, if_neg (fun he => h he.symm)]
      exact lexLe_total _ _

theorem string_data_inj {s t : String} (h : s.data = t.data) : s = t := by
  cases s
  cases t
  simp only at h
  rw [h]

instance : IsTrans (String × String) pairLe where
  trans := by
    intro p q r hpq hqr
    unfold pairLe at *
    by_cases h1 : p.1 = q.1
    · rw [if_pos h1] at hpq
      by_cases h2 : q.1 = r.1
      · rw [if_pos h2] at hqr
        rw [if_pos (h1.trans h2)]
        exact lexLe_trans _ _ _ hpq hqr
      · rw [if_neg h2] at hqr
        rw [if_neg (fun he => h2 (h1.symm.trans he)), h1]
        exact hqr
    · rw [if_neg h1] at hpq
      by_cases h2 : q.1 = r.1
      · rw [if_pos h2] at hqr
        rw [if_neg (fun he => h1 (he.trans h2.symm)), ← h2]
        exact hpq
      · rw [if_neg h2] at hqr
        by_cases h3 : p.1 = r.1
        · exfalso
          apply h1
          apply string_data_inj
          exact lexLe_antisymm _ _ hpq (by rw [h3]; exact hqr)
        · rw [if_neg h3]
          exact lexLe_trans _ _ _ hpq hqr

/-- The characters written for one cache record before the newline:
`f"{h} {pw}"`. -/
def cacheLine (p : String × String) : List Char := p.1.data ++ ' ' :: p.2.data

/-- `save_cache`: write `f"{h} {pw}\n"` for each entry of
`sorted(cache_dict.items())`; the result is the whole file content. -/
def save_cache (cache_dict : List (String × String)) : String :=
  String.mk ((List.insertionSort pairLe cache_dict).flatMap fun p => cacheLine p ++ ['\n'])

/-- Split a character list at every `'\n'`: models Python's file-line
iteration combined with `line.rstrip("\n")` (each yielded line carries at
most one trailing newline, which is stripped). -/
def splitNl : List Char → List (List Char)
  | [] => [[]]
  | c :: rest =>
    if c = '\n' then [] :: splitNl rest
    else
      match splitNl rest with
      | w :: ws => (c :: w) :: ws
      | [] => [[c]]

/-- Python `line.split(" ", 1)` restricted to the two-part case: `none` when
the line holds no space (the `len(parts) == 2` guard fails). -/
def break1 : List Char → Option (List Char × List Char)
  | [] => none
  | c :: rest =>
    if c = ' ' then some ([], rest)
    else
      match break1 rest with
      | some (a, b) => some (c :: a, b)
      | none => none

/-- One line of `load_cache`'s loop body. -/
def loadStep (cache : List (String × String)) (l : List Char) : List (String × String) :=
  match break1 l with
  | some (k, pw) => dictInsert cache (lowerStr (String.mk k)) (String.mk pw)
  | none => cache

/-- `load_cache`: parse every line `digest-hex plaintext` (first space
significant), lowercasing the digest key. -/
def load_cache (content : String) : List (String × String) :=
  (splitNl content.data).foldl loadStep []

theorem splitNl_append {l : List Char} (h : '\n' ∉ l) (rest : List Char) :
    splitNl (l ++ '\n' :: rest) = l :: splitNl rest := by
  induction l with
  | nil => simp [splitNl]
  | cons c cl ih =>
    have hc : c ≠ '\n' := fun he => h (he ▸ List.mem_cons_self c cl)
    have hcl : '\n' ∉ cl := fun hm => h (List.mem_cons_of_mem c hm)
    simp only [List.cons_append, splitNl, hc, if_neg, not_false_iff, List.append_eq, ih hcl]

theorem splitNl_flatMap : ∀ lines : List (List Char), (∀ l ∈ lines, '\n' ∉ l) →
    splitNl (lines.flatMap fun l => l ++ ['\n']) = lines ++ [[]] := by
  intro lines hl
  induction lines with
  | nil => rfl
  | cons l ls ih =>
    rw [List.flatMap_cons, List.append_assoc, List.singleton_append,
      splitNl_append (hl l (List.mem_cons_self l ls))]
    rw [ih fun x hx => hl x (List.mem_cons_of_mem l hx)]
    rfl

theorem break1_append {h : List Char} (hs : ' ' ∉ h) (t : List Char) :
    break1 (h ++ ' ' :: t) = some (h, t) := by
  induction h with
  | nil => simp [break1]
  | cons c cl ih =>
    have hc : c ≠ ' ' := fun he => hs (he ▸ List.mem_cons_self c cl)
    have hcl : ' ' ∉ cl := fun hm => hs (List.mem_cons_of_mem c hm)
    simp only [List.cons_append, break1, hc, if_neg, not_false_iff, List.append_eq, ih hcl]

theorem foldl_dictInsert_eq_append (ps : List (String × String)) :
    ∀ acc, (keys (acc ++ ps)).Nodup →
      ps.foldl (fun m p => dictInsert m p.1 p.2) acc = acc ++ ps := by
  induction ps with
  | nil =>
    intro acc _
    simp
  | cons p ps ih =>
    intro acc hnd
    have hp : p.1 ∉ keys acc := by
      intro hm
      simp only [keys, List.map_append, List.map_cons] at hnd
      rcases List.nodup_append.mp hnd with ⟨_, _, hdisj⟩
      exact hdisj (by simpa [keys] using hm) (List.mem_cons_self _ _)
    have hins : dictInsert acc p.1 p.2 = acc ++ [p] := by
      unfold dictInsert
      rw [if_neg hp]
    rw [List.foldl_cons, hins, ih (acc ++ [p]) (by simpa using hnd)]
    simp

theorem pairLe_key_le {p q : String × String} (h : pairLe p q) :
    lexLe p.1.data q.1.data = true := by
  unfold pairLe at h
  by_cases he : p.1 = q.1
  · rw [he]
    exact lexLe_refl _
  · rwa [if_neg he] at h

/-- C4: Cache round-trip: for every digest-to-plaintext mapping whose keys
are lowercase, space-free, newline-free digest-hex strings and whose
plaintexts contain no newline, `load_cache (save_cache m)` reproduces exactly
the mapping `m`, and the serialized record order is sorted by digest-hex
(code-point lexicographic, keys pairwise nondecreasing). -/
theorem c4_cache_round_trip (m : List (String × String))
    (hnd : (keys m).Nodup)
    (hk1 : ∀ p ∈ m, ' ' ∉ p.1.data)
    (hk2 : ∀ p ∈ m, '\n' ∉ p.1.data)
    (hk3 : ∀ p ∈ m, p.1.data.map Char.toLower = p.1.data)
    (hv : ∀ p ∈ m, '\n' ∉ p.2.data) :
    (∀ k, alook (load_cache (save_cache m)) k = alook m k) ∧
    List.Pairwise (fun a b : String × String => lexLe a.1.data b.1.data = true)
      (List.insertionSort pairLe m) := by
  have hperm : (List.insertionSort pairLe m).Perm m := List.perm_insertionSort pairLe m
  have hmem : ∀ p ∈ List.insertionSort pairLe m, p ∈ m := fun p hp => hperm.mem_iff.mp hp
  have hndS : (keys (List.insertionSort pairLe m)).Nodup :=
    (hperm.map Prod.fst).nodup_iff.mpr hnd
  constructor
  · intro k
    have hlines : ∀ l ∈ (List.insertionSort pairLe m).map cacheLine, '\n' ∉ l := by
      intro l hl
      rcases List.mem_map.mp hl with ⟨p, hp, rfl⟩
      unfold cacheLine
      intro hmem'
      rcases List.mem_append.mp hmem' with h | h
      · exact hk2 p (hmem p hp) h
      · rcases List.mem_cons.mp h with h | h
        · exact absurd h.symm (by decide)
        · exact hv p (hmem p hp) h
    have hflat : ((List.insertionSort pairLe m).flatMap fun p => cacheLine p ++ ['\n']) =
        ((List.insertionSort pairLe m).map cacheLine).flatMap fun l => l ++ ['\n'] := by
      rw [List.flatMap_map]
    have hsplit : splitNl (save_cache m).data =
        (List.insertionSort pairLe m).map cacheLine ++ [[]] := by
      show splitNl ((List.insertionSort pairLe m).flatMap fun p => cacheLine p ++ ['\n']) = _
      rw [hflat, splitNl_flatMap _ hlines]
    have hload : load_cache (save_cache m) =
        ((List.insertionSort pairLe m).map cacheLine).foldl loadStep [] := by
      unfold load_cache
      rw [hsplit, List.foldl_append]
      rfl
    have hsteps : ∀ (ps : List (String × String)) (acc : List (String × String)),
        (∀ p ∈ ps, p ∈ m) →
        (ps.map cacheLine).foldl loadStep acc =
          ps.foldl (fun c p => dictInsert c p.1 p.2) acc := by
      intro ps
      induction ps with
      | nil =>
        intro acc _
        rfl
      | cons p ps ih =>
        intro acc hps
        have hpm : p ∈ m := hps p (List.mem_cons_self _ _)
        have hstep : loadStep acc (cacheLine p) = dictInsert acc p.1 p.2 := by
          unfold loadStep cacheLine
          rw [break1_append (hk1 p hpm)]
          show dictInsert acc (lowerStr (String.mk p.1.data)) (String.mk p.2.data) =
            dictInsert acc p.1 p.2
          have hlow : lowerStr (String.mk p.1.data) = p.1 := by
            apply string_data_inj
            exact hk3 p hpm
          rw [hlow]
        rw [List.map_cons, List.foldl_cons, hstep, List.foldl_cons]
        exact ih _ fun q hq => hps q (List.mem_cons_of_mem p hq)
    rw [hload, hsteps _ [] hmem,
      foldl_dictInsert_eq_append (List.insertionSort pairLe m) [] (by simpa using hndS)]
    simp only [List.nil_append]
    exact alook_perm hndS hperm k
  · have hsorted : List.Sorted pairLe (List.insertionSort pairLe m) :=
      List.sorted_insertionSort pairLe m
    exact List.Pairwise.imp pairLe_key_le hsorted

/-- Witness for C4 at a concrete two-entry cache, with a space inside one
plaintext and unsorted input order. -/
theorem c4_witness :
    alook (load_cache (save_cache [("bb", "p w"), ("aa", "x")])) "aa" =
      alook [("bb", "p w"), ("aa", "x")] "aa" ∧
    alook (load_cache (save_cache [("bb", "p w"), ("aa", "x")])) "bb" =
      alook [("bb", "p w"), ("aa", "x")] "bb" ∧
    List.Pairwise (fun a b : String × String => lexLe a.1.data b.1.data = true)
      (List.insertionSort pairLe [("bb", "p w"), ("aa", "x")]) := by
  have h := c4_cache_round_trip [("bb", "p w"), ("aa", "x")]
    (by decide) (by decide) (by decide) (by decide) (by decide)
  exact ⟨h.1 "aa", h.1 "bb", h.2⟩

/-!
The digest-list loader `load_hashes` (identical in cracker.py, wordonly.py
and patternanalysis.py): for each line, `parts = line.strip().split()`; when
exactly two fields are present, `id_to_hash[user_id] = hash_hex.lower()` and
`hash_to_ids[hash_hex.lower()].append(user_id)`.
-/

/-- Python `str.split()` on a character list: split on runs of whitespace,
discarding empty fields (which also subsumes the preceding `strip()`). -/
def wsSplit : List Char → List (List Char)
  | [] => []
  | c :: rest =>
    if c.isWhitespace then wsSplit rest
    else
      match rest with
      | [] => [[c]]
      | c2 :: _ =>
        if c2.isWhitespace then [c] :: wsSplit rest
        else
          match wsSplit rest with
          | w :: ws => (c :: w) :: ws
          | [] => [[c]]

/-- Python `line.strip().split()`. -/
def pySplit (s : String) : List String := (wsSplit s.data).map String.mk

/-- The well-formed-record filter of `load_hashes`: exactly two fields,
digest lowercased. -/
def parseLine2 (line : String) : Option (String × String) :=
  match pySplit line with
  | [u, hh] => some (u, lowerStr hh)
  | _ => none

/-- `load_hashes`: build `id_to_hash` (dict, last write wins) and
`hash_to_ids` (defaultdict(list), appending) from the digest-list lines. -/
def load_hashes (lines : List String) :
    List (String × String) × List (String × List String) :=
  lines.foldl
    (fun acc line =>
      match parseLine2 line with
      | some (u, hh) => (dictInsert acc.1 u hh, multiInsert acc.2 hh u)
      | none => acc)
    ([], [])

/-- The (identifier, digest) pairs of the well-formed lines, in order. -/
def wellFormedPairs (lines : List String) : List (String × String) :=
  lines.filterMap parseLine2

/-- `id_to_hash` as a fold over the well-formed pairs. -/
def buildI2H (pairs : List (String × String)) : List (String × String) :=
  pairs.foldl (fun m p => dictInsert m p.1 p.2) []

/-- `hash_to_ids` as a fold over the well-formed pairs. -/
def buildH2I (pairs : List (String × String)) : List (String × List String) :=
  pairs.foldl (fun m p => multiInsert m p.2 p.1) []

theorem wellFormedPairs_cons (line : String) (ls : List String) :
    wellFormedPairs (line :: ls) =
      match parseLine2 line with
      | some p => p :: wellFormedPairs ls
      | none => wellFormedPairs ls := by
  unfold wellFormedPairs
  rw [List.filterMap_cons]
  cases parseLine2 line <;> rfl

theorem load_hashes_eq (lines : List String) :
    load_hashes lines =
      (buildI2H (wellFormedPairs lines), buildH2I (wellFormedPairs lines)) := by
  suffices h : ∀ (a : List (String × String)) (b : List (String × List String)),
      lines.foldl
        (fun acc line =>
          match parseLine2 line with
          | some (u, hh) => (dictInsert acc.1 u hh, multiInsert acc.2 hh u)
          | none => acc)
        (a, b) =
      ((wellFormedPairs lines).foldl (fun m p => dictInsert m p.1 p.2) a,
       (wellFormedPairs lines).foldl (fun m p => multiInsert m p.2 p.1) b) by
    exact h [] []
  induction lines with
  | nil =>
    intro a b
    rfl
  | cons line ls ih =>
    intro a b
    rw [List.foldl_cons, wellFormedPairs_cons]
    cases hp : parseLine2 line with
    | none =>
      simp only
      exact ih a b
    | some p =>
      cases p with
      | mk u hh =>
        simp only [List.foldl_cons]
        exact ih _ _

/-- `hash_to_ids` lists identifier `u` under digest `k`. -/
def h2iHas (m : List (String × List String)) (u k : String) : Prop :=
  ∃ ids, alook m k = some ids ∧ u ∈ ids

theorem h2iHas_multiInsert (m : List (String × List String)) (k' u' u k : String) :
    h2iHas (multiInsert m k' u') u k ↔ h2iHas m u k ∨ (u = u' ∧ k = k') := by
  unfold h2iHas
  by_cases hk : k = k'
  · subst hk
    rw [alook_multiInsert_self]
    constructor
    · rintro ⟨ids, hids, hu⟩
      rw [← Option.some.inj hids] at hu
      rcases List.mem_append.mp hu with hu | hu
      · left
        cases ha : alook m k with
        | none =>
          rw [ha] at hu
          simp at hu
        | some ids0 =>
          rw [ha] at hu
          exact ⟨ids0, rfl, by simpa using hu⟩
      · right
        exact ⟨by simpa using hu, rfl⟩
    · rintro (⟨ids, hids, hu⟩ | ⟨rfl, _⟩)
      · exact ⟨_, rfl, List.mem_append.mpr (Or.inl (by rw [hids]; simpa using hu))⟩
      · exact ⟨_, rfl, List.mem_append.mpr (Or.inr (by simp))⟩
  · rw [alook_multiInsert_ne m k' u' hk]
    constructor
    · exact Or.inl
    · rintro (h | ⟨_, hkk⟩)
      · exact h
      · exact absurd hkk hk

theorem h2iHas_buildH2I (pairs : List (String × String)) (u k : String) :
    h2iHas (buildH2I pairs) u k ↔ (u, k) ∈ pairs := by
  suffices h : ∀ b : List (String × List String),
      h2iHas (pairs.foldl (fun m p => multiInsert m p.2 p.1) b) u k ↔
        h2iHas b u k ∨ (u, k) ∈ pairs by
    rw [buildH2I, h []]
    simp [h2iHas, alook]
  induction pairs with
  | nil =>
    intro b
    simp
  | cons p ps ih =>
    intro b
    rw [List.foldl_cons, ih (multiInsert b p.2 p.1), h2iHas_multiInsert]
    rw [List.mem_cons, Prod.ext_iff]
    tauto

theorem mem_keys_foldl_multiInsert (ps : List (String × String)) :
    ∀ (b : List (String × List String)) (k : String),
      k ∈ keys (ps.foldl (fun m p => multiInsert m p.2 p.1) b) ↔
        k ∈ keys b ∨ k ∈ ps.map Prod.snd := by
  induction ps with
  | nil =>
    intro b k
    simp
  | cons p ps ih =>
    intro b k
    rw [List.foldl_cons, ih (multiInsert b p.2 p.1) k, keys_multiInsert_mem]
    rw [List.map_cons, List.mem_cons]
    tauto

theorem nodup_keys_buildH2I (pairs : List (String × String)) :
    (keys (buildH2I pairs)).Nodup := by
  suffices h : ∀ b : List (String × List String), (keys b).Nodup →
      (keys (pairs.foldl (fun m p => multiInsert m p.2 p.1) b)).Nodup from
    h [] (by simp [keys])
  induction pairs with
  | nil => exact fun b hb => hb
  | cons p ps ih =>
    intro b hb
    rw [List.foldl_cons]
    exact ih _ (nodup_keys_multiInsert _ _ hb)

theorem mem_dictInsert_sub {β : Type} {m : List (String × β)} {k : String} {v : β}
    {q : String × β} (h : q ∈ dictInsert m k v) : q ∈ m ∨ q = (k, v) := by
  unfold dictInsert at h
  by_cases hk : k ∈ keys m
  · rw [if_pos hk] at h
    rcases List.mem_map.mp h with ⟨r, hr, hq⟩
    by_cases hrk : r.1 = k
    · right
      rw [← hq]
      simp [hrk]
    · left
      rw [← hq]
      simpa [hrk] using hr
  · rw [if_neg hk] at h
    rcases List.mem_append.mp h with h | h
    · exact Or.inl h
    · exact Or.inr (by simpa using h)

theorem foldl_dictInsert_subset (ps : List (String × String)) :
    ∀ (b : List (String × String)) (q : String × String),
      q ∈ ps.foldl (fun m p => dictInsert m p.1 p.2) b → q ∈ b ∨ q ∈ ps := by
  induction ps with
  | nil =>
    intro b q h
    exact Or.inl h
  | cons p ps ih =>
    intro b q h
    rw [List.foldl_cons] at h
    rcases ih _ q h with h2 | h2
    · rcases mem_dictInsert_sub h2 with h3 | h3
      · exact Or.inl h3
      · right
        rw [h3]
        exact List.mem_cons_self _ _
    · exact Or.inr (List.mem_cons_of_mem _ h2)

theorem buildI2H_subset (pairs : List (String × String)) {q : String × String}
    (h : q ∈ buildI2H pairs) : q ∈ pairs := by
  rcases foldl_dictInsert_subset pairs [] q h with h2 | h2
  · simp at h2
  · exact h2

theorem mem_keys_foldl_dictInsert (ps : List (String × String)) :
    ∀ (b : List (String × String)) (u : String),
      u ∈ keys (ps.foldl (fun m p => dictInsert m p.1 p.2) b) ↔
        u ∈ keys b ∨ u ∈ ps.map Prod.fst := by
  induction ps with
  | nil =>
    intro b u
    simp
  | cons p ps ih =>
    intro b u
    rw [List.foldl_cons, ih (dictInsert b p.1 p.2) u, mem_keys_dictInsert]
    rw [List.map_cons, List.mem_cons]
    tauto

theorem nodup_keys_buildI2H (pairs : List (String × String)) :
    (keys (buildI2H pairs)).Nodup := by
  suffices h : ∀ b : List (String × String), (keys b).Nodup →
      (keys (pairs.foldl (fun m p => dictInsert m p.1 p.2) b)).Nodup from
    h [] (by simp [keys])
  induction pairs with
  | nil => exact fun b hb => hb
  | cons p ps ih =>
    intro b hb
    rw [List.foldl_cons]
    exact ih _ (nodup_keys_dictInsert _ _ hb)

theorem mem_keys_buildI2H (pairs : List (String × String)) (u : String) :
    u ∈ keys (buildI2H pairs) ↔ u ∈ pairs.map Prod.fst := by
  rw [buildI2H, mem_keys_foldl_dictInsert]
  simp [keys]

theorem buildI2H_alook (pairs : List (String × String))
    (hnodup : (pairs.map Prod.fst).Nodup) {u k : String} (h : (u, k) ∈ pairs) :
    alook (buildI2H pairs) u = some k := by
  have hu : u ∈ keys (buildI2H pairs) :=
    (mem_keys_buildI2H pairs u).mpr (List.mem_map_of_mem Prod.fst h)
  rw [mem_keys_iff_alook_isSome] at hu
  cases ha : alook (buildI2H pairs) u with
  | none =>
    rw [ha] at hu
    simp at hu
  | some v =>
    have hvm : (u, v) ∈ pairs := buildI2H_subset pairs (mem_of_alook_eq_some ha)
    rw [mem_functional hnodup hvm h]

/-- C9 counterexample: on the raw input lines `["u1 aa", "u1 bb"]` (the same
identifier on two well-formed lines) the loaded `hash_to_ids` lists
identifier `u1` in the identifier sets of the two distinct digests `aa` and
`bb`, so an identifier does not occur in the identifier set of exactly one
digest. -/
theorem c9_counterexample :
    alook (load_hashes ["u1 aa", "u1 bb"]).2 "aa" = some ["u1"] ∧
    alook (load_hashes ["u1 aa", "u1 bb"]).2 "bb" = some ["u1"] ∧
    "u1" ∈ (["u1"] : List String) ∧ ("aa" : String) ≠ "bb" ∧
    (load_hashes ["u1 aa", "u1 bb"]).1 = [("u1", "bb")] := by
  decide

/-- C9 amended: `id_to_hash` is always a function (one digest per identifier,
last well-formed line wins).  For raw inputs in which no identifier appears
on more than one well-formed line, the full invariant holds: every identifier
in `id_to_hash` occurs in the identifier set of exactly one digest of
`hash_to_ids` (at most one digest's set, and at least one); with duplicated
identifiers an identifier may occur under several digests. -/
theorem c9_identifier_invariant (lines : List String)
    (hnodup : ((wellFormedPairs lines).map Prod.fst).Nodup) :
    (∀ u k1 k2, (u, k1) ∈ (load_hashes lines).1 → (u, k2) ∈ (load_hashes lines).1 →
      k1 = k2) ∧
    (∀ u k1 k2 ids1 ids2, alook (load_hashes lines).2 k1 = some ids1 → u ∈ ids1 →
      alook (load_hashes lines).2 k2 = some ids2 → u ∈ ids2 → k1 = k2) ∧
    (∀ u, u ∈ keys (load_hashes lines).1 →
      ∃ k ids, alook (load_hashes lines).2 k = some ids ∧ u ∈ ids) := by
  rw [load_hashes_eq]
  refine ⟨?_, ?_, ?_⟩
  · intro u k1 k2 h1 h2
    exact mem_functional (nodup_keys_buildI2H _) h1 h2
  · intro u k1 k2 ids1 ids2 ha1 hu1 ha2 hu2
    have hm1 : (u, k1) ∈ wellFormedPairs lines :=
      (h2iHas_buildH2I _ u k1).mp ⟨ids1, ha1, hu1⟩
    have hm2 : (u, k2) ∈ wellFormedPairs lines :=
      (h2iHas_buildH2I _ u k2).mp ⟨ids2, ha2, hu2⟩
    exact mem_functional (m := wellFormedPairs lines) hnodup hm1 hm2
  · intro u hu
    rw [mem_keys_buildI2H] at hu
    rcases List.mem_map.mp hu with ⟨p, hp, rfl⟩
    have : h2iHas (buildH2I (wellFormedPairs lines)) p.1 p.2 :=
      (h2iHas_buildH2I _ p.1 p.2).mpr hp
    rcases this with ⟨ids, hids, hmem⟩
    exact ⟨p.2, ids, hids, hmem⟩

/-- Witness for C9 amended at two distinct identifiers. -/
theorem c9_identifier_invariant_witness :
    ((wellFormedPairs ["u1 aa", "u2 bb"]).map Prod.fst).Nodup ∧
    ((∀ u k1 k2, (u, k1) ∈ (load_hashes ["u1 aa", "u2 bb"]).1 →
        (u, k2) ∈ (load_hashes ["u1 aa", "u2 bb"]).1 → k1 = k2) ∧
      (∀ u k1 k2 ids1 ids2, alook (load_hashes ["u1 aa", "u2 bb"]).2 k1 = some ids1 →
        u ∈ ids1 → alook (load_hashes ["u1 aa", "u2 bb"]).2 k2 = some ids2 →
        u ∈ ids2 → k1 = k2) ∧
      (∀ u, u ∈ keys (load_hashes ["u1 aa", "u2 bb"]).1 →
        ∃ k ids, alook (load_hashes ["u1 aa", "u2 bb"]).2 k = some ids ∧ u ∈ ids)) :=
  ⟨by decide, c9_identifier_invariant ["u1 aa", "u2 bb"] (by decide)⟩

theorem mem_keys_buildH2I (pairs : List (String × String)) (k : String) :
    k ∈ keys (buildH2I pairs) ↔ k ∈ pairs.map Prod.snd := by
  rw [buildH2I, mem_keys_foldl_multiInsert]
  simp [keys]

theorem mem_map_snd_buildI2H (pairs : List (String × String))
    (hnodup : (pairs.map Prod.fst).Nodup) (k : String) :
    k ∈ (buildI2H pairs).map Prod.snd ↔ k ∈ pairs.map Prod.snd := by
  constructor
  · intro h
    rcases List.mem_map.mp h with ⟨q, hq, rfl⟩
    exact List.mem_map_of_mem Prod.snd (buildI2H_subset pairs hq)
  · intro h
    rcases List.mem_map.mp h with ⟨q, hq, rfl⟩
    have ha : alook (buildI2H pairs) q.1 = some q.2 :=
      buildI2H_alook pairs hnodup (by simpa using hq)
    exact List.mem_map_of_mem Prod.snd (mem_of_alook_eq_some ha)

/-!
The `main` orchestration, common to cracker.py and wordonly.py: pre-resolve
from the cache (`for uid, h in id_to_hash.items(): if h in cache:
found[h] = cache[h]`), skip all work when `len(found) == len(hash_to_ids)`,
otherwise run the ordered strategies against the engine while unresolved
digests remain, and finally merge (`updated_cache = dict(cache);
updated_cache.update(found); save_cache(...)`).  Each strategy's candidate
stream is a parameter (`streams`), since the concrete streams differ per
program variant and some are randomized.
-/

/-- The cache pre-resolution loop of `main`. -/
def seedFound (i2h : List (String × String)) (cache : List (String × String)) :
    List (String × String) :=
  i2h.foldl
    (fun f p =>
      match alook cache p.2 with
      | some pw => dictInsert f p.2 pw
      | none => f)
    []

/-- Drain one strategy's candidate stream into `test`, stopping the moment
`test` returns `True` (all targets resolved). -/
def runStrategy (hash : String → String) : Cracker → List String → Cracker
  | e, [] => e
  | e, c :: cs =>
    match Cracker.test hash e c with
    | (true, e2) => e2
    | (false, e2) => runStrategy hash e2 cs

/-- The strategy loop of `main`: each strategy runs only while unresolved
digests remain (`if cracker.remaining_hashes: strategy()`). -/
def orchestrate (hash : String → String) (e : Cracker) (streams : List (List String)) :
    Cracker :=
  streams.foldl (fun e s => if e.remaining_hashes = [] then e else runStrategy hash e s) e

/-- Outcome of one `main` run: the final FoundMap, the engine's attempt
count (0 when no engine was created), and the merged cache that is saved. -/
structure MainResult where
  found : List (String × String)
  attempts : Nat
  updated_cache : List (String × String)
deriving DecidableEq

/-- The `main` flow of cracker.py (wordonly.py is identical in this
structure): load hashes and cache, seed `found` from the cache, and either
skip all generator work (when every unique hash is already found) or run the
strategies; in both cases merge `found` over the loaded cache. -/
def cracker_main (hash : String → String) (pwLines : List String) (cacheContent : String)
    (streams : List (List String)) : MainResult :=
  let lh := load_hashes pwLines
  let cache := load_cache cacheContent
  let found := seedFound lh.1 cache
  if found.length = lh.2.length then
    ⟨found, 0, dictUpdate cache found⟩
  else
    let e := orchestrate hash (Cracker.init lh.2 found) streams
    ⟨e.found, e.attempts, dictUpdate cache e.found⟩

theorem alook_seedFound (cache i2h : List (String × String)) (k : String) :
    alook (seedFound i2h cache) k =
      if k ∈ i2h.map Prod.snd ∧ (alook cache k).isSome then alook cache k else none := by
  suffices h : ∀ f : List (String × String),
      alook (i2h.foldl
        (fun f p =>
          match alook cache p.2 with
          | some pw => dictInsert f p.2 pw
          | none => f) f) k =
      if k ∈ i2h.map Prod.snd ∧ (alook cache k).isSome then alook cache k
      else alook f k by
    rw [seedFound, h []]
    by_cases hc : k ∈ i2h.map Prod.snd ∧ (alook cache k).isSome
    · rw [if_pos hc, if_pos hc]
    · rw [if_neg hc, if_neg hc]
      rfl
  induction i2h with
  | nil =>
    intro f
    simp
  | cons p ps ih =>
    intro f
    rw [List.foldl_cons]
    cases hc : alook cache p.2 with
    | none =>
      rw [ih f]
      by_cases hk : k = p.2
      · subst hk
        rw [hc]
        simp
      · simp only [List.map_cons, List.mem_cons, hk, false_or]
    | some pw =>
      rw [ih (dictInsert f p.2 pw)]
      by_cases hmem : k ∈ ps.map Prod.snd ∧ (alook cache k).isSome
      · rw [if_pos hmem, if_pos ⟨by simp [hmem.1], hmem.2⟩]
      · rw [if_neg hmem]
        by_cases hk : k = p.2
        · subst hk
          rw [if_pos ⟨by simp, by simp [hc]⟩, alook_dictInsert_self, hc]
        · rw [alook_dictInsert_ne _ _ _ hk, if_neg ?_]
          intro hcon
          rcases hcon with ⟨hin, hsome⟩
          simp only [List.map_cons, List.mem_cons] at hin
          rcases hin with h1 | h1
          · exact hk h1
          · exact hmem ⟨h1, hsome⟩

theorem mem_keys_seedFound (cache i2h : List (String × String)) (k : String) :
    k ∈ keys (seedFound i2h cache) ↔
      k ∈ i2h.map Prod.snd ∧ (alook cache k).isSome := by
  rw [mem_keys_iff_alook_isSome, alook_seedFound]
  by_cases h : k ∈ i2h.map Prod.snd ∧ (alook cache k).isSome
  · rw [if_pos h]
    exact ⟨fun _ => h, fun _ => h.2⟩
  · rw [if_neg h]
    constructor
    · intro hf
      simp at hf
    · intro hc
      exact absurd hc h

theorem nodup_keys_seedFound (cache i2h : List (String × String)) :
    (keys (seedFound i2h cache)).Nodup := by
  suffices h : ∀ f : List (String × String), (keys f).Nodup →
      (keys (i2h.foldl
        (fun f p =>
          match alook cache p.2 with
          | some pw => dictInsert f p.2 pw
          | none => f) f)).Nodup from h [] (by simp [keys])
  induction i2h with
  | nil => exact fun f hf => hf
  | cons p ps ih =>
    intro f hf
    rw [List.foldl_cons]
    cases hc : alook cache p.2 with
    | none => exact ih f hf
    | some pw => exact ih _ (nodup_keys_dictInsert _ _ hf)

theorem length_eq_of_nodup_mem_iff {l1 l2 : List String} (h1 : l1.Nodup) (h2 : l2.Nodup)
    (h : ∀ a, a ∈ l1 ↔ a ∈ l2) : l1.length = l2.length :=
  (List.perm_of_nodup_nodup_toFinset_eq h1 h2 (Finset.ext fun a => by
    simp only [List.mem_toFinset]
    exact h a)).length_eq

/-- Run-long invariant relating the engine to the loaded cache: found keys
are duplicate-free, `found` agrees with the cache wherever both are defined,
and no remaining digest is a cache key. -/
def CacheInv (cache : List (String × String)) (e : Cracker) : Prop :=
  (keys e.found).Nodup ∧
  (∀ k, k ∈ keys e.found → k ∈ keys cache → alook e.found k = alook cache k) ∧
  (∀ k ∈ e.remaining_hashes, k ∉ keys cache)

theorem CacheInv_test (hash : String → String) (cache : List (String × String))
    (e : Cracker) (c : String) (h : CacheInv cache e) :
    CacheInv cache (Cracker.test hash e c).2 := by
  obtain ⟨h1, h2, h3⟩ := h
  by_cases hm : hash c ∈ e.remaining_hashes
  · rw [test_hit hash e c hm]
    refine ⟨nodup_keys_dictInsert _ _ h1, ?_, ?_⟩
    · intro k hk hkc
      simp only at hk ⊢
      have hne : k ≠ hash c := fun he => (h3 (hash c) hm) (he ▸ hkc)
      rw [alook_dictInsert_ne _ _ _ hne]
      rcases (mem_keys_dictInsert _ _ _ k).mp hk with hk2 | hk2
      · exact h2 k hk2 hkc
      · exact absurd hk2 hne
    · intro k hk
      exact h3 k (List.mem_of_mem_erase hk)
  · rw [test_miss hash e c hm]
    exact ⟨h1, h2, h3⟩

theorem runStrategy_cons (hash : String → String) (e : Cracker) (c : String)
    (cs : List String) :
    runStrategy hash e (c :: cs) =
      if (Cracker.test hash e c).1 = true then (Cracker.test hash e c).2
      else runStrategy hash (Cracker.test hash e c).2 cs := by
  show (match Cracker.test hash e c with
        | (true, e2) => e2
        | (false, e2) => runStrategy hash e2 cs) = _
  rcases h : Cracker.test hash e c with ⟨b, e2⟩
  cases b <;> simp

theorem CacheInv_runStrategy (hash : String → String) (cache : List (String × String)) :
    ∀ (cs : List String) (e : Cracker), CacheInv cache e →
      CacheInv cache (runStrategy hash e cs) := by
  intro cs
  induction cs with
  | nil => exact fun e h => h
  | cons c cs ih =>
    intro e h
    rw [runStrategy_cons]
    by_cases hb : (Cracker.test hash e c).1 = true
    · rw [if_pos hb]
      exact CacheInv_test hash cache e c h
    · rw [if_neg hb]
      exact ih _ (CacheInv_test hash cache e c h)

theorem CacheInv_orchestrate (hash : String → String) (cache : List (String × String)) :
    ∀ (streams : List (List String)) (e : Cracker), CacheInv cache e →
      CacheInv cache (orchestrate hash e streams) := by
  intro streams
  induction streams with
  | nil => exact fun e h => h
  | cons s ss ih =>
    intro e h
    show CacheInv cache
      (orchestrate hash (if e.remaining_hashes = [] then e else runStrategy hash e s) ss)
    apply ih
    by_cases hr : e.remaining_hashes = []
    · rw [if_pos hr]
      exact h
    · rw [if_neg hr]
      exact CacheInv_runStrategy hash cache s e h

theorem seed_mem_aux (pairs cache : List (String × String))
    (hnodup : (pairs.map Prod.fst).Nodup)
    (hcomplete : ∀ k ∈ keys (buildH2I pairs), k ∈ keys cache) (k : String) :
    k ∈ keys (seedFound (buildI2H pairs) cache) ↔ k ∈ keys (buildH2I pairs) := by
  rw [mem_keys_seedFound, mem_map_snd_buildI2H pairs hnodup, ← mem_keys_buildH2I]
  constructor
  · rintro ⟨h1, _⟩
    exact h1
  · intro h1
    exact ⟨h1, (mem_keys_iff_alook_isSome _ _).mp (hcomplete k h1)⟩

theorem seed_guard_aux (pairs cache : List (String × String))
    (hnodup : (pairs.map Prod.fst).Nodup)
    (hcomplete : ∀ k ∈ keys (buildH2I pairs), k ∈ keys cache) :
    (seedFound (buildI2H pairs) cache).length = (buildH2I pairs).length := by
  rw [show (seedFound (buildI2H pairs) cache).length =
    (keys (seedFound (buildI2H pairs) cache)).length from (List.length_map _ _).symm]
  rw [show (buildH2I pairs).length = (keys (buildH2I pairs)).length from
    (List.length_map _ _).symm]
  exact length_eq_of_nodup_mem_iff (nodup_keys_seedFound _ _) (nodup_keys_buildH2I _)
    (seed_mem_aux pairs cache hnodup hcomplete)

/-- C7 amended: for runs whose digest-list input repeats no identifier across
well-formed lines, if the loaded cache holds a plaintext for every digest in
the TargetSet, then `main` takes the cache-complete branch: no engine is
created, the attempt count stays zero, and the resulting FoundMap is exactly
the loaded cache restricted to the TargetSet's digests.  (With a duplicated
identifier the `len(found) == len(hash_to_ids)` guard can fail even though
the cache is complete, and generators do run — see the counterexample.) -/
theorem c7_cache_complete_zero_work (hash : String → String) (pwLines : List String)
    (cacheContent : String) (streams : List (List String))
    (hnodup : ((wellFormedPairs pwLines).map Prod.fst).Nodup)
    (hcomplete : ∀ k ∈ keys (load_hashes pwLines).2, k ∈ keys (load_cache cacheContent)) :
    (cracker_main hash pwLines cacheContent streams).attempts = 0 ∧
    ∀ k, alook (cracker_main hash pwLines cacheContent streams).found k =
      if k ∈ keys (load_hashes pwLines).2 then alook (load_cache cacheContent) k
      else none := by
  have h1eq : (load_hashes pwLines).1 = buildI2H (wellFormedPairs pwLines) := by
    rw [load_hashes_eq]
  have h2eq : (load_hashes pwLines).2 = buildH2I (wellFormedPairs pwLines) := by
    rw [load_hashes_eq]
  rw [h2eq] at hcomplete
  have hguard : (seedFound (load_hashes pwLines).1 (load_cache cacheContent)).length =
      (load_hashes pwLines).2.length := by
    rw [h1eq, h2eq]
    exact seed_guard_aux _ _ hnodup hcomplete
  have hmain : cracker_main hash pwLines cacheContent streams =
      ⟨seedFound (load_hashes pwLines).1 (load_cache cacheContent), 0,
        dictUpdate (load_cache cacheContent)
          (seedFound (load_hashes pwLines).1 (load_cache cacheContent))⟩ := by
    unfold cracker_main
    rw [if_pos hguard]
  rw [hmain]
  refine ⟨rfl, ?_⟩
  intro k
  simp only
  rw [h1eq, h2eq, alook_seedFound]
  by_cases hk : k ∈ keys (buildH2I (wellFormedPairs pwLines))
  · rw [if_pos hk, if_pos ?_]
    refine ⟨?_, (mem_keys_iff_alook_isSome _ _).mp (hcomplete k hk)⟩
    exact (mem_map_snd_buildI2H _ hnodup k).mpr ((mem_keys_buildH2I _ k).mp hk)
  · rw [if_neg hk, if_neg ?_]
    rintro ⟨hin, _⟩
    exact hk ((mem_keys_buildH2I _ k).mpr ((mem_map_snd_buildI2H _ hnodup k).mp hin))

/-- Witness for C7 amended: two users, two digests, cache complete. -/
theorem c7_cache_complete_zero_work_witness :
    (((wellFormedPairs ["u1 aa", "u2 bb"]).map Prod.fst).Nodup ∧
      (∀ k ∈ keys (load_hashes ["u1 aa", "u2 bb"]).2,
        k ∈ keys (load_cache "aa x\nbb y"))) ∧
    (cracker_main (fun s => "h" ++ s) ["u1 aa", "u2 bb"] "aa x\nbb y"
      [["cat"]]).attempts = 0 ∧
    alook (cracker_main (fun s => "h" ++ s) ["u1 aa", "u2 bb"] "aa x\nbb y"
      [["cat"]]).found "aa" =
      (if "aa" ∈ keys (load_hashes ["u1 aa", "u2 bb"]).2 then
        alook (load_cache "aa x\nbb y") "aa" else none) := by
  have h := c7_cache_complete_zero_work (fun s => "h" ++ s) ["u1 aa", "u2 bb"]
    "aa x\nbb y" [["cat"]] (by decide) (by decide)
  exact ⟨⟨by decide, by decide⟩, h.1, h.2 "aa"⟩

/-- C7 counterexample: with the duplicate-identifier input
`["u1 aa", "u1 bb"]` the cache `"aa x\nbb y"` holds a plaintext for every
TargetSet digest (`aa` and `bb`), yet `main` does not take the zero-work
branch: the single-word strategy stream `["cat"]` is drained (attempts = 1),
and the resulting FoundMap is missing digest `aa`, so it is not the cache
restricted to the TargetSet. -/
theorem c7_counterexample :
    (∀ k ∈ keys (load_hashes ["u1 aa", "u1 bb"]).2, k ∈ keys (load_cache "aa x\nbb y")) ∧
    (cracker_main (fun s => "h" ++ s) ["u1 aa", "u1 bb"] "aa x\nbb y"
      [["cat"]]).attempts = 1 ∧
    alook (cracker_main (fun s => "h" ++ s) ["u1 aa", "u1 bb"] "aa x\nbb y"
      [["cat"]]).found "aa" = none ∧
    alook (load_cache "aa x\nbb y") "aa" = some "x" ∧
    "aa" ∈ keys (load_hashes ["u1 aa", "u1 bb"]).2 := by
  decide

/-- Common shape of both `main` branches: the saved cache is
`dictUpdate cache f` for a FoundMap `f` with duplicate-free keys that agrees
with the cache on shared keys. -/
theorem cracker_main_shape (hash : String → String) (pwLines : List String)
    (cacheContent : String) (streams : List (List String))
    (hnodup : ((wellFormedPairs pwLines).map Prod.fst).Nodup) :
    (keys (cracker_main hash pwLines cacheContent streams).found).Nodup ∧
    (∀ k, k ∈ keys (cracker_main hash pwLines cacheContent streams).found →
      k ∈ keys (load_cache cacheContent) →
      alook (cracker_main hash pwLines cacheContent streams).found k =
        alook (load_cache cacheContent) k) ∧
    (cracker_main hash pwLines cacheContent streams).updated_cache =
      dictUpdate (load_cache cacheContent)
        (cracker_main hash pwLines cacheContent streams).found := by
  have h1eq : (load_hashes pwLines).1 = buildI2H (wellFormedPairs pwLines) := by
    rw [load_hashes_eq]
  have hseed_agree : ∀ k, k ∈ keys (seedFound (load_hashes pwLines).1
      (load_cache cacheContent)) →
      alook (seedFound (load_hashes pwLines).1 (load_cache cacheContent)) k =
        alook (load_cache cacheContent) k := by
    intro k hk
    rw [alook_seedFound, if_pos ((mem_keys_seedFound _ _ k).mp hk)]
  unfold cracker_main
  by_cases hguard : (seedFound (load_hashes pwLines).1 (load_cache cacheContent)).length =
      (load_hashes pwLines).2.length
  · rw [if_pos hguard]
    exact ⟨nodup_keys_seedFound _ _, fun k hk _ => hseed_agree k hk, rfl⟩
  · rw [if_neg hguard]
    have hinv : CacheInv (load_cache cacheContent)
        (orchestrate hash
          (Cracker.init (load_hashes pwLines).2
            (seedFound (load_hashes pwLines).1 (load_cache cacheContent)))
          streams) := by
      apply CacheInv_orchestrate
      refine ⟨nodup_keys_seedFound _ _, fun k hk _ => hseed_agree k hk, ?_⟩
      intro k hk hkc
      simp only [Cracker.init, List.mem_filter, decide_eq_true_eq] at hk
      obtain ⟨hk1, hk2⟩ := hk
      apply hk2
      rw [h1eq]
      apply (mem_keys_seedFound _ _ k).mpr
      refine ⟨?_, (mem_keys_iff_alook_isSome _ _).mp hkc⟩
      rw [mem_map_snd_buildI2H _ hnodup, ← mem_keys_buildH2I]
      have hk1' : k ∈ keys (load_hashes pwLines).2 := List.mem_dedup.mp hk1
      rw [load_hashes_eq] at hk1'
      exact hk1'
    exact ⟨hinv.1, hinv.2.1, rfl⟩

/-- C2 amended: for every run whose digest-list input repeats no identifier
across well-formed lines, the cache persisted at shutdown agrees with the
cache loaded at startup on every digest already present in the loaded cache,
and (unconditionally) the persisted cache's key set is the additive union of
the loaded cache's keys and the run's FoundMap keys.  (With a duplicated
identifier a cache key can remain in RemainingTargets and be re-credited
with a different plaintext — see the counterexample.) -/
theorem c2_first_write_wins (hash : String → String) (pwLines : List String)
    (cacheContent : String) (streams : List (List String))
    (hnodup : ((wellFormedPairs pwLines).map Prod.fst).Nodup) :
    (∀ k, k ∈ keys (load_cache cacheContent) →
      alook (cracker_main hash pwLines cacheContent streams).updated_cache k =
        alook (load_cache cacheContent) k) ∧
    (∀ k, k ∈ keys (cracker_main hash pwLines cacheContent streams).updated_cache ↔
      (k ∈ keys (load_cache cacheContent) ∨
        k ∈ keys (cracker_main hash pwLines cacheContent streams).found)) := by
  obtain ⟨hnd, hagree, hupd⟩ :=
    cracker_main_shape hash pwLines cacheContent streams hnodup
  constructor
  · intro k hk
    rw [hupd]
    by_cases hkf : k ∈ keys (cracker_main hash pwLines cacheContent streams).found
    · rw [alook_dictUpdate_mem _ _ k hnd hkf]
      exact hagree k hkf hk
    · exact alook_dictUpdate_not_mem _ _ k hkf
  · intro k
    rw [hupd]
    exact mem_keys_dictUpdate _ _ k

/-- Witness for C2 amended at a concrete run that cracks a new digest. -/
theorem c2_first_write_wins_witness :
    ((wellFormedPairs ["u1 aa", "u2 bb"]).map Prod.fst).Nodup ∧
    ("aa" ∈ keys (load_cache "aa x") ∧
      alook (cracker_main (fun s => if s = "c" then "bb" else "h" ++ s)
        ["u1 aa", "u2 bb"] "aa x" [["c"]]).updated_cache "aa" =
        alook (load_cache "aa x") "aa") ∧
    ("bb" ∈ keys (cracker_main (fun s => if s = "c" then "bb" else "h" ++ s)
        ["u1 aa", "u2 bb"] "aa x" [["c"]]).updated_cache ↔
      ("bb" ∈ keys (load_cache "aa x") ∨
        "bb" ∈ keys (cracker_main (fun s => if s = "c" then "bb" else "h" ++ s)
          ["u1 aa", "u2 bb"] "aa x" [["c"]]).found)) := by
  have h := c2_first_write_wins (fun s => if s = "c" then "bb" else "h" ++ s)
    ["u1 aa", "u2 bb"] "aa x" [["c"]] (by decide)
  exact ⟨by decide, ⟨by decide, h.1 "aa" (by decide)⟩, h.2 "bb"⟩

/-- C2 counterexample: with the duplicate-identifier input
`["u1 aa", "u1 bb"]` and loaded cache `{"aa": "x"}`, digest `aa` stays in
RemainingTargets (the cache seeding only sees `u1 -> bb`), the run credits
`aa` with candidate `"c"`, and the merge `dict(cache).update(found)`
replaces the loaded cache's plaintext for `aa` with the different value
`"c"` in the same run. -/
theorem c2_counterexample :
    "aa" ∈ keys (load_cache "aa x") ∧
    alook (cracker_main (fun s => if s = "c" then "aa" else "h" ++ s)
      ["u1 aa", "u1 bb"] "aa x" [["c"]]).updated_cache "aa" = some "c" ∧
    alook (load_cache "aa x") "aa" = some "x" ∧
    (some "c" : Option String) ≠ some "x" := by
  decide

end PC
